import Mathlib

/-!
Shallow embedding of the core of `alevinval/vendor-rs`:
the filter matcher, the dependency job (`DependencyManager`), the lock store
(`VendorLock`) and the orchestrator merge step (`VendorManager::update_lock`),
translated from `src/core/managers/dependency.rs`, `src/core/managers/vendor.rs`
and `src/core/spec_lock.rs`.
-/

/-! ## Data model (from `spec_lock.rs`, `vendor.rs` and the managers' field uses) -/

/-- A locked dependency: remote identity and the resolved concrete reference
(struct `DependencyLock` in `src/core`). -/
structure DependencyLock where
  url : String
  refname : String
  deriving Repr, DecidableEq

/-- A configured dependency: remote identity, desired reference and
dependency-level filter patterns, as used by `DependencyManager`
(`self.dependency.url / refname / targets / ignores / extensions`). -/
structure Dependency where
  url : String
  refname : String
  targets : List String
  ignores : List String
  extensions : List String
  deriving Repr, DecidableEq

/-- The vendor spec: destination folder, spec-level default filter patterns and
the dependency list, as used by the managers
(`spec.vendor / targets / ignores / extensions / deps`). -/
structure VendorSpec where
  vendor : String
  targets : List String
  ignores : List String
  extensions : List String
  deps : List Dependency
  deriving Repr, DecidableEq

/-- The lock store (`VendorLock` in `spec_lock.rs`): version, locked deps and the
last-update timestamp (`DateTime<Utc>` modelled as a `Nat`; `Utc::now()` is an
explicit `now` argument wherever the source calls it). -/
structure VendorLock where
  version : String
  deps : List DependencyLock
  updatedAt : Nat
  deriving Repr, DecidableEq

/-! ## ASCII case-insensitive comparison (Rust `str::eq_ignore_ascii_case`) -/

/-- Rust `u8::to_ascii_lowercase` lifted to characters: lowers `A`..`Z`, leaves
every other character unchanged. -/
def asciiLower (c : Char) : Char :=
  if 'A' ≤ c ∧ c ≤ 'Z' then Char.ofNat (c.toNat + 32) else c

/-- A string with every ASCII uppercase letter lowered. -/
def lowerAscii (s : String) : String :=
  ⟨s.data.map asciiLower⟩

/-- Rust `eq_ignore_ascii_case`: equality after ASCII-lowercasing.  (Rust
compares UTF-8 bytes; lowering bytes and lowering characters agree because
non-ASCII code points only produce bytes ≥ 0x80, which the lowering fixes.) -/
def eqIgnoreAsciiCase (a b : String) : Bool :=
  lowerAscii a == lowerAscii b

/-! ## Paths.  Rust `Path` operations, modelled on `/`-separated strings. -/

/-- Split a character list on a separator character. -/
def splitChars (sep : Char) : List Char → List (List Char)
  | [] => [[]]
  | c :: rest =>
    if c = sep then [] :: splitChars sep rest
    else
      match splitChars sep rest with
      | [] => [[c]]
      | g :: gs => (c :: g) :: gs

/-- The components of a path: split on `/`, dropping empty components (Rust's
component iterator ignores repeated and trailing separators; the `.`/`..`
normalization of leading components is not needed for the relative paths this
tool matches). -/
def pathComponents (p : String) : List String :=
  ((splitChars '/' p.data).map (fun cs => String.mk cs)).filter (fun c => c ≠ "")

/-- Rust `Path::starts_with`: whole-component prefix test, not string-prefix. -/
def pathStartsWith (p base : String) : Bool :=
  (pathComponents base).isPrefixOf (pathComponents p)

/-- Join path components back with `/`. -/
def joinComponents : List String → String
  | [] => ""
  | [c] => c
  | c :: rest => c ++ "/" ++ joinComponents rest

/-- Rust `Path::strip_prefix`: drop a whole-component prefix, failing when
`base` is not a component-wise prefix of `p`. -/
def stripPrefixPath (p base : String) : Option String :=
  if pathStartsWith p base then
    some (joinComponents ((pathComponents p).drop (pathComponents base).length))
  else none

/-- Rust `Path::file_name`: the last path component (`none` for an empty path or
one ending in `.` or `..`). -/
def fileName (p : String) : Option String :=
  match (pathComponents p).getLast? with
  | some c => if c = ".." ∨ c = "." then none else some c
  | none => none

/-- Rust `Path::extension`: the part of the file name after the last `.`;
`none` when there is no file name, the name has no `.`, or the name begins with
its only `.` (dotfiles such as `.gitignore` have no extension). -/
def extension (p : String) : Option String :=
  match fileName p with
  | none => none
  | some f =>
    match (splitChars '.' f.data).map (fun cs => String.mk cs) with
    | [] => none
    | [_] => none
    | ["", _] => none
    | parts => parts.getLast?

/-! ## Filter matcher (`dependency.rs`, free functions) -/

/-- Source `chained_any`: whether any pattern of the two chained lists satisfies the
matcher (`a.iter().chain(b.iter()).any(matcher)`). -/
def chained_any (a b : List String) (matcher : String → Bool) : Bool :=
  (a ++ b).any matcher

/-- Source `path_matcher`: does the path start (component-wise) with the pattern. -/
def path_matcher (path : String) : String → Bool :=
  fun base => pathStartsWith path base

/-- Source `extension_matcher`: does the path's extension equal the pattern,
ASCII-case-insensitively. -/
def extension_matcher (input : String) : String → Bool :=
  fun ext => eqIgnoreAsciiCase input ext

/-! ## The Version-Control Cache collaborator and the dependency job -/

/-- Modelled from the spec: the Version-Control Cache collaborator
(`core::Repository`, whose definition is not under `src/`; §6 of the spec gives
its boundary contract).  `path` is the local working-copy root, `files` the
sequence produced by `enumerate_files()`, the `...Ok` fields say whether
`ensure` / `fetch` / `reset` / `checkout` / `current_reference` succeed,
`resolve r` is the concrete reference obtained by checking out or resetting to
the reference expression `r`, and `copyOk src` models whether the filesystem
copy of a given source file succeeds. -/
structure RepoBehavior where
  path : String
  files : List String
  ensureOk : Bool
  fetchOk : String → Bool
  resetOk : String → Bool
  checkoutOk : String → Bool
  currentOk : Bool
  resolve : String → String
  copyOk : String → Bool

/-- The observable operations a dependency job performs on the repository and
the filesystem, in order. -/
inductive RepoOp where
  | ensure : RepoOp
  | fetch : String → RepoOp
  | reset : String → RepoOp
  | checkout : String → RepoOp
  | copyFile : String → String → RepoOp
  | currentRefname : RepoOp
  deriving Repr, DecidableEq

/-- Struct `DependencyManager` of `dependency.rs`. -/
structure DependencyManager where
  vendor_spec : VendorSpec
  dependency : Dependency
  dependency_lock : Option DependencyLock
  repository : RepoBehavior

/-- Method `DependencyManager::is_ignored`. -/
def DependencyManager.is_ignored (m : DependencyManager) (path : String) : Bool :=
  chained_any m.vendor_spec.ignores m.dependency.ignores (path_matcher path)

/-- Method `DependencyManager::is_target`. -/
def DependencyManager.is_target (m : DependencyManager) (path : String) : Bool :=
  chained_any m.vendor_spec.targets m.dependency.targets (path_matcher path)

/-- Method `DependencyManager::is_extension`. -/
def DependencyManager.is_extension (m : DependencyManager) (path : String) : Bool :=
  match extension path with
  | some ext =>
    chained_any m.vendor_spec.extensions m.dependency.extensions (extension_matcher ext)
  | none => false

/-- The per-file classification the `copy_files` loop makes, in source order:
ignored first, then not-target, then disallowed extension, else copy. -/
inductive FileAction where
  | ignored : FileAction
  | notTarget : FileAction
  | ignoredExtension : FileAction
  | copy : FileAction
  deriving Repr, DecidableEq

/-- The branch of the `copy_files` loop body taken for one relative path. -/
def DependencyManager.fileAction (m : DependencyManager) (rel : String) : FileAction :=
  if m.is_ignored rel then FileAction.ignored
  else if !(m.is_target rel) then FileAction.notTarget
  else if !(m.is_extension rel) then FileAction.ignoredExtension
  else FileAction.copy

/-- The `copy_files` loop over the repository's file enumeration: returns the
copy operations performed (in order) and the first error, if any.  A failing
`strip_prefix` or `copy_file` aborts the loop (`?` in the source); files copied
before the failure stay copied. -/
def copyLoop (m : DependencyManager) (dst_root : String) : List String → List RepoOp × Option String
  | [] => ([], none)
  | src :: rest =>
    match stripPrefixPath src m.repository.path with
    | none => ([], some "strip_prefix failed")
    | some rel =>
      match m.fileAction rel with
      | FileAction.copy =>
        if m.repository.copyOk src then
          (RepoOp.copyFile src (dst_root ++ "/" ++ rel) :: (copyLoop m dst_root rest).1,
            (copyLoop m dst_root rest).2)
        else ([], some "copy failed")
      | _ => copyLoop m dst_root rest

/-- Method `DependencyManager::copy_files`. -/
def DependencyManager.copy_files (m : DependencyManager) (dst_root : String) :
    List RepoOp × Option String :=
  copyLoop m dst_root m.repository.files

/-- Method `DependencyManager::get_locked_refname`: the prior lock entry's reference
when one is present, else the dependency's declared reference. -/
def DependencyManager.get_locked_refname (m : DependencyManager) : String :=
  match m.dependency_lock with
  | some it => it.refname
  | none => m.dependency.refname

/-- Method `DependencyManager::import` (named `importTo`, the source name being reserved):
copy the files, then build the lock entry from the repository's current
concrete reference (`get_locked_dependency`), which is `current`. -/
def DependencyManager.importTo (m : DependencyManager) (current : String) (dst_root : String) :
    List RepoOp × Except String DependencyLock :=
  match (m.copy_files dst_root).2 with
  | some e => ((m.copy_files dst_root).1, Except.error e)
  | none =>
    if m.repository.currentOk then
      ((m.copy_files dst_root).1 ++ [RepoOp.currentRefname],
        Except.ok { url := m.dependency.url, refname := current })
    else
      ((m.copy_files dst_root).1 ++ [RepoOp.currentRefname],
        Except.error "get_current_refname failed")

/-- Method `DependencyManager::install`: ensure the working copy, check out the locked
refname, then copy files and return the freshly resolved lock entry. -/
def DependencyManager.install (m : DependencyManager) (dst : String) :
    List RepoOp × Except String DependencyLock :=
  if m.repository.ensureOk then
    if m.repository.checkoutOk m.get_locked_refname then
      ((RepoOp.ensure :: RepoOp.checkout m.get_locked_refname ::
          (m.importTo (m.repository.resolve m.get_locked_refname) dst).1),
        (m.importTo (m.repository.resolve m.get_locked_refname) dst).2)
    else ([RepoOp.ensure, RepoOp.checkout m.get_locked_refname],
      Except.error "checkout failed")
  else ([RepoOp.ensure], Except.error "ensure_repository failed")

/-- Method `DependencyManager::update`: ensure the working copy, fetch and hard-reset
the declared refname (the lock is ignored), then copy files and return the
freshly resolved lock entry. -/
def DependencyManager.update (m : DependencyManager) (dst : String) :
    List RepoOp × Except String DependencyLock :=
  if m.repository.ensureOk then
    if m.repository.fetchOk m.dependency.refname then
      if m.repository.resetOk m.dependency.refname then
        ((RepoOp.ensure :: RepoOp.fetch m.dependency.refname ::
            RepoOp.reset m.dependency.refname ::
            (m.importTo (m.repository.resolve m.dependency.refname) dst).1),
          (m.importTo (m.repository.resolve m.dependency.refname) dst).2)
      else ([RepoOp.ensure, RepoOp.fetch m.dependency.refname,
          RepoOp.reset m.dependency.refname], Except.error "reset failed")
    else ([RepoOp.ensure, RepoOp.fetch m.dependency.refname], Except.error "fetch failed")
  else ([RepoOp.ensure], Except.error "ensure_repository failed")

/-- The destination files written during a job, read off its operation trace. -/
def copiedFiles (trace : List RepoOp) : List String :=
  trace.filterMap fun op =>
    match op with
    | RepoOp.copyFile _ dst => some dst
    | _ => none

/-! ## Lock store (`spec_lock.rs`) -/

/-- Helper for `VendorLock::add`: `find_dep_mut` locates the first entry whose
url matches case-insensitively and its refname is replaced; otherwise the new
entry is pushed at the end. -/
def addDep (deps : List DependencyLock) (dep : DependencyLock) : List DependencyLock :=
  match deps with
  | [] => [dep]
  | l :: rest =>
    if eqIgnoreAsciiCase l.url dep.url then { l with refname := dep.refname } :: rest
    else l :: addDep rest dep

/-- Method `VendorLock::add`: upsert by identity and refresh `updated_at`
(`Utc::now()` modelled as the `now` argument). -/
def VendorLock.add (lock : VendorLock) (dep : DependencyLock) (now : Nat) : VendorLock :=
  { lock with deps := addDep lock.deps dep, updatedAt := now }

/-- Method `VendorLock::find_dep`: case-insensitive lookup by url. -/
def VendorLock.find_dep (lock : VendorLock) (url : String) : Option DependencyLock :=
  lock.deps.find? (fun l => eqIgnoreAsciiCase l.url url)

/-- Rust `Vec::dedup_by` with `|a, b| a.url.eq_ignore_ascii_case(&b.url)`:
walk the list dropping every element whose url equals (case-insensitively) the
url of the last kept element. -/
def dedupFrom (kept : DependencyLock) : List DependencyLock → List DependencyLock
  | [] => []
  | b :: rest =>
    if eqIgnoreAsciiCase b.url kept.url then dedupFrom kept rest
    else b :: dedupFrom b rest

/-- Rust `dedup_by` on the whole list: the first element is always kept. -/
def dedupByUrl : List DependencyLock → List DependencyLock
  | [] => []
  | a :: rest => a :: dedupFrom a rest

/-- Lexicographic comparison of character lists by code point (Rust `str::cmp`
compares UTF-8 bytes, which orders strings exactly as their code points do). -/
def charListLe : List Char → List Char → Bool
  | [], _ => true
  | _ :: _, [] => false
  | a :: as, b :: bs =>
    if a.toNat < b.toNat then true
    else if b.toNat < a.toNat then false
    else charListLe as bs

/-- The ordering `VendorLock::lint` sorts by: `a.url.cmp(&b.url)`. -/
def urlLe (a b : DependencyLock) : Prop :=
  charListLe a.url.data b.url.data = true

instance : DecidableRel urlLe :=
  fun a b => inferInstanceAs (Decidable (charListLe a.url.data b.url.data = true))

instance : IsTotal DependencyLock urlLe := by
  constructor
  intro x y
  show charListLe x.url.data y.url.data = true ∨ charListLe y.url.data x.url.data = true
  generalize x.url.data = as
  generalize y.url.data = bs
  induction as generalizing bs with
  | nil => left; rfl
  | cons a as ih =>
    cases bs with
    | nil => right; rfl
    | cons b bs =>
      by_cases hab : a.toNat < b.toNat
      · left; simp [charListLe, hab]
      · by_cases hba : b.toNat < a.toNat
        · right; simp [charListLe, hba]
        · rcases ih bs with h | h
          · left; simp [charListLe, hab, hba, h]
          · right; simp [charListLe, hab, hba, h]

instance : IsTrans DependencyLock urlLe := by
  constructor
  intro x y z h1 h2
  show charListLe x.url.data z.url.data = true
  revert h1 h2
  show charListLe x.url.data y.url.data = true → charListLe y.url.data z.url.data = true →
    charListLe x.url.data z.url.data = true
  generalize x.url.data = as
  generalize y.url.data = bs
  generalize z.url.data = cs
  induction as generalizing bs cs with
  | nil => intro _ _; rfl
  | cons a as ih =>
    intro h1 h2
    cases bs with
    | nil => simp [charListLe] at h1
    | cons b bs =>
      cases cs with
      | nil => simp [charListLe] at h2
      | cons c cs =>
        simp only [charListLe] at h1 h2 ⊢
        by_cases hab : a.toNat < b.toNat <;> by_cases hba : b.toNat < a.toNat <;>
          by_cases hbc : b.toNat < c.toNat <;> by_cases hcb : c.toNat < b.toNat <;>
            simp [hab, hba, hbc, hcb] at h1 h2 ⊢ <;>
              first
                | omega
                | exact ih bs cs h1 h2
                | exact Or.inr ⟨by omega, ih bs cs h1 h2⟩

/-- Method `VendorLock::lint` (the spec's `normalize`): stable-sort the entries by url
(Rust `sort_by` is stable; any stable sort — here insertion sort — computes the
same list), then remove adjacent case-insensitive duplicate urls. -/
def VendorLock.lint (lock : VendorLock) : VendorLock :=
  { lock with deps := dedupByUrl (List.insertionSort urlLe lock.deps) }

/-- How many entries of a lock-entry list carry a given identity,
case-insensitively. -/
def countUrl (deps : List DependencyLock) (u : String) : Nat :=
  (deps.filter (fun d => eqIgnoreAsciiCase d.url u)).length

/-- The spec's lock-store invariant: at most one entry per identity
(case-insensitive). -/
def UniqueIdentities (lock : VendorLock) : Prop :=
  ∀ u, countUrl lock.deps u ≤ 1

/-! ## Orchestrator merge step (`vendor.rs`) -/

/-- Whether a job result is a success. -/
def isSuccess (r : Except String DependencyLock) : Bool :=
  match r with
  | Except.ok _ => true
  | Except.error _ => false

/-- Method `VendorManager::update_lock`: merge one joined job result — upsert into the
lock on success, log-and-skip on failure. -/
def update_lock (lock : VendorLock) (now : Nat) : Except String DependencyLock → VendorLock
  | Except.ok d => lock.add d now
  | Except.error _ => lock

/-- The merge loop of `VendorManager::execute`: fold every joined job result
into the lock store, in completion order. -/
def mergeResults (lock : VendorLock) (now : Nat)
    (results : List (Except String DependencyLock)) : VendorLock :=
  results.foldl (fun l r => update_lock l now r) lock

/-- Function `inner_install`: build the `DependencyManager` with the prior lock entry
found by identity, and run install into the spec's vendor folder. -/
def inner_install (spec : VendorSpec) (dep : Dependency) (repo : RepoBehavior)
    (lockStore : VendorLock) : List RepoOp × Except String DependencyLock :=
  (DependencyManager.mk spec dep (lockStore.find_dep dep.url) repo).install spec.vendor

/-- Function `inner_update`: build the `DependencyManager` with `None` as the dependency
lock — the prior lock store is never consulted — and run update. -/
def inner_update (spec : VendorSpec) (dep : Dependency) (repo : RepoBehavior)
    (lockStore : VendorLock) : List RepoOp × Except String DependencyLock :=
  (DependencyManager.mk spec dep none repo).update spec.vendor

/-! ## Properties used by the theorems -/

/-- Two adjacent lock entries carry distinct identities (case-insensitively);
`dedup_by` guarantees this between each element and the last kept one. -/
def IdentityDistinct (a b : DependencyLock) : Prop :=
  eqIgnoreAsciiCase b.url a.url = false

/-! ## Concrete fixtures for witnesses and counterexamples -/

/-- A spec targeting `a`, ignoring `ignored`, copying `proto` files. -/
def specA : VendorSpec :=
  { vendor := "vendor", targets := ["a"], ignores := ["ignored"],
    extensions := ["proto"], deps := [] }

/-- The same spec with no target patterns anywhere. -/
def specNoTargets : VendorSpec :=
  { specA with targets := [] }

/-- A dependency with identity `u`, declared reference `main`, no overrides. -/
def depA : Dependency :=
  { url := "u", refname := "main", targets := [], ignores := [], extensions := [] }

/-- A prior lock entry pinning `u` to `locked`. -/
def lockEntryA : DependencyLock :=
  { url := "u", refname := "locked" }

/-- A healthy repository with one eligible file. -/
def repoA : RepoBehavior :=
  { path := "cache/u", files := ["cache/u/a/x.proto"], ensureOk := true,
    fetchOk := fun _ => true, resetOk := fun _ => true,
    checkoutOk := fun _ => true, currentOk := true,
    resolve := fun r => r ++ "-sha", copyOk := fun _ => true }

/-- A repository where copying the second file fails. -/
def repoMidFail : RepoBehavior :=
  { repoA with
    files := ["cache/u/a/x.proto", "cache/u/a/y.proto"],
    copyOk := fun s => s != "cache/u/a/y.proto" }

/-- A repository whose remote is unreachable (`ensure` fails). -/
def repoDown : RepoBehavior :=
  { repoA with ensureOk := false }

/-- A job with a prior lock entry. -/
def mgrLocked : DependencyManager :=
  ⟨specA, depA, some lockEntryA, repoA⟩

/-- A job without a prior lock entry. -/
def mgrPlain : DependencyManager :=
  ⟨specA, depA, none, repoA⟩

/-- A job whose second file copy fails. -/
def mgrMidFail : DependencyManager :=
  ⟨specA, depA, none, repoMidFail⟩

/-- A job whose repository is unreachable. -/
def mgrDown : DependencyManager :=
  ⟨specA, depA, none, repoDown⟩

/-- A job with no target patterns configured anywhere. -/
def mgrNoTargets : DependencyManager :=
  ⟨specNoTargets, depA, none, repoA⟩

/-- A job whose spec both targets and ignores the pattern `a`. -/
def mgrComponent : DependencyManager :=
  ⟨{ vendor := "vendor", targets := ["a"], ignores := ["a"],
     extensions := ["proto"], deps := [] }, depA, none, repoA⟩

/-- An empty lock store. -/
def lockEmpty : VendorLock :=
  ⟨"0.0", [], 0⟩

/-- A lock store whose entries `A`, `B`, `a` are already sorted byte-wise, with
the two case-insensitive duplicates of `a` not adjacent. -/
def lockCaseGap : VendorLock :=
  ⟨"0.0", [⟨"A", "r1"⟩, ⟨"B", "r2"⟩, ⟨"a", "r3"⟩], 0⟩

/-! ## Helper lemmas -/

theorem eqIgnoreAsciiCase_iff (a b : String) :
    eqIgnoreAsciiCase a b = true ↔ lowerAscii a = lowerAscii b := by
  simp [eqIgnoreAsciiCase]

theorem eqIgnoreAsciiCase_refl (a : String) : eqIgnoreAsciiCase a a = true := by
  simp [eqIgnoreAsciiCase]

theorem countUrl_nil (u : String) : countUrl [] u = 0 := rfl

theorem countUrl_cons (x : DependencyLock) (xs : List DependencyLock) (u : String) :
    countUrl (x :: xs) u
      = (if eqIgnoreAsciiCase x.url u = true then 1 else 0) + countUrl xs u := by
  simp only [countUrl, List.filter_cons]
  split
  · simp [Nat.add_comm]
  · simp

theorem countUrl_addDep_of_ne (deps : List DependencyLock) (dep : DependencyLock)
    (u : String) (h : eqIgnoreAsciiCase dep.url u = false) :
    countUrl (addDep deps dep) u = countUrl deps u := by
  induction deps with
  | nil => simp [addDep, countUrl_cons, countUrl_nil, h]
  | cons l rest ih =>
    by_cases hl : eqIgnoreAsciiCase l.url dep.url = true
    · simp [addDep, hl, countUrl_cons]
    · simp only [addDep, hl, Bool.false_eq_true, if_false, countUrl_cons, ih]

theorem eqIgnoreAsciiCase_ne_of (a b u : String)
    (hab : eqIgnoreAsciiCase a b = false) (hau : eqIgnoreAsciiCase a u = true) :
    eqIgnoreAsciiCase b u = false := by
  cases hbu : eqIgnoreAsciiCase b u with
  | false => rfl
  | true =>
    rw [eqIgnoreAsciiCase_iff] at hau hbu
    have h2 : eqIgnoreAsciiCase a b = true :=
      (eqIgnoreAsciiCase_iff a b).mpr (hau.trans hbu.symm)
    rw [h2] at hab
    cases hab

theorem countUrl_addDep_le :
    ∀ (deps : List DependencyLock) (dep : DependencyLock),
      (∀ u, countUrl deps u ≤ 1) → ∀ u, countUrl (addDep deps dep) u ≤ 1 := by
  intro deps
  induction deps with
  | nil =>
    intro dep _ u
    simp only [addDep, countUrl_cons, countUrl_nil]
    split <;> simp
  | cons l rest ih =>
    intro dep h u
    have hrest : ∀ v, countUrl rest v ≤ 1 := by
      intro v
      have hv := h v
      rw [countUrl_cons] at hv
      omega
    by_cases hl : eqIgnoreAsciiCase l.url dep.url = true
    · have hu := h u
      rw [countUrl_cons] at hu
      simp only [addDep, hl, if_true, countUrl_cons]
      simpa using hu
    · have hl' : eqIgnoreAsciiCase l.url dep.url = false := by simpa using hl
      simp only [addDep, hl', Bool.false_eq_true, if_false, countUrl_cons]
      by_cases hu : eqIgnoreAsciiCase l.url u = true
      · have hdu : eqIgnoreAsciiCase dep.url u = false :=
          eqIgnoreAsciiCase_ne_of l.url dep.url u hl' hu
        have h0 : countUrl rest u = 0 := by
          have hu2 := h u
          rw [countUrl_cons, hu] at hu2
          simp at hu2
          omega
        rw [countUrl_addDep_of_ne rest dep u hdu, h0, hu]
        simp
      · have hu' : eqIgnoreAsciiCase l.url u = false := by simpa using hu
        rw [hu']
        simp only [Bool.false_eq_true, if_false, Nat.zero_add]
        exact ih dep hrest u

theorem countUrl_addDep_self :
    ∀ (deps : List DependencyLock) (dep : DependencyLock),
      countUrl deps dep.url ≤ 1 → countUrl (addDep deps dep) dep.url = 1 := by
  intro deps
  induction deps with
  | nil =>
    intro dep _
    simp [addDep, countUrl_cons, countUrl_nil, eqIgnoreAsciiCase_refl]
  | cons l rest ih =>
    intro dep h
    by_cases hl : eqIgnoreAsciiCase l.url dep.url = true
    · have h0 : countUrl rest dep.url = 0 := by
        rw [countUrl_cons, hl] at h
        simp at h
        omega
      simp [addDep, hl, countUrl_cons, h0]
    · have hl' : eqIgnoreAsciiCase l.url dep.url = false := by simpa using hl
      simp only [addDep, hl', Bool.false_eq_true, if_false, countUrl_cons, hl',
        Nat.zero_add]
      exact ih dep (by rw [countUrl_cons, hl'] at h; simpa using h)

theorem copyLoop_ops (m : DependencyManager) (dst : String) :
    ∀ (files : List String) (op : RepoOp), op ∈ (copyLoop m dst files).1 →
      ∃ s d, op = RepoOp.copyFile s d := by
  intro files
  induction files with
  | nil => intro op h; simp [copyLoop] at h
  | cons src rest ih =>
    intro op h
    cases hs : stripPrefixPath src m.repository.path with
    | none => simp [copyLoop, hs] at h
    | some rel =>
      cases ha : m.fileAction rel with
      | copy =>
        by_cases hc : m.repository.copyOk src = true
        · simp only [copyLoop, hs, ha, hc, if_true, List.mem_cons] at h
          rcases h with h | h
          · exact ⟨src, dst ++ "/" ++ rel, h⟩
          · exact ih op h
        · simp [copyLoop, hs, ha, hc] at h
      | ignored =>
        simp only [copyLoop, hs, ha] at h
        exact ih op h
      | notTarget =>
        simp only [copyLoop, hs, ha] at h
        exact ih op h
      | ignoredExtension =>
        simp only [copyLoop, hs, ha] at h
        exact ih op h

theorem importTo_ops (m : DependencyManager) (cur dst : String) (op : RepoOp)
    (h : op ∈ (m.importTo cur dst).1) :
    (∃ s d, op = RepoOp.copyFile s d) ∨ op = RepoOp.currentRefname := by
  unfold DependencyManager.importTo at h
  cases he : (m.copy_files dst).2 with
  | some e =>
    simp only [he] at h
    exact Or.inl (copyLoop_ops m dst m.repository.files op h)
  | none =>
    by_cases hc : m.repository.currentOk = true
    · simp only [he, hc, if_true, List.mem_append, List.mem_singleton] at h
      rcases h with h | h
      · exact Or.inl (copyLoop_ops m dst m.repository.files op h)
      · exact Or.inr h
    · simp only [he, hc, Bool.false_eq_true, if_false] at h
      rw [List.mem_append, List.mem_singleton] at h
      rcases h with h | h
      · exact Or.inl (copyLoop_ops m dst m.repository.files op h)
      · exact Or.inr h

theorem importTo_ok (m : DependencyManager) (cur dst : String) (d : DependencyLock)
    (h : (m.importTo cur dst).2 = Except.ok d) :
    d.url = m.dependency.url ∧ d.refname = cur := by
  unfold DependencyManager.importTo at h
  cases he : (m.copy_files dst).2 with
  | some e => simp [he] at h
  | none =>
    by_cases hc : m.repository.currentOk = true
    · simp only [he, hc, if_true, Except.ok.injEq] at h
      rw [← h]
      exact ⟨rfl, rfl⟩
    · simp [he, hc] at h

theorem dedupFrom_sublist :
    ∀ (l : List DependencyLock) (kept : DependencyLock), List.Sublist (dedupFrom kept l) l := by
  intro l
  induction l with
  | nil => intro kept; simp [dedupFrom]
  | cons b rest ih =>
    intro kept
    by_cases hb : eqIgnoreAsciiCase b.url kept.url = true
    · simp only [dedupFrom, hb, if_true]
      exact List.Sublist.cons b (ih kept)
    · have hb' : eqIgnoreAsciiCase b.url kept.url = false := by simpa using hb
      simp only [dedupFrom, hb', Bool.false_eq_true, if_false]
      exact List.Sublist.cons₂ b (ih b)

theorem dedupByUrl_sublist (l : List DependencyLock) : List.Sublist (dedupByUrl l) l := by
  cases l with
  | nil => simp [dedupByUrl]
  | cons a rest => exact List.Sublist.cons₂ a (dedupFrom_sublist rest a)

theorem chain_dedupFrom :
    ∀ (l : List DependencyLock) (kept : DependencyLock),
      List.Chain' IdentityDistinct (kept :: dedupFrom kept l) := by
  intro l
  induction l with
  | nil => intro kept; simp [dedupFrom]
  | cons b rest ih =>
    intro kept
    by_cases hb : eqIgnoreAsciiCase b.url kept.url = true
    · simpa [dedupFrom, hb] using ih kept
    · have hb' : eqIgnoreAsciiCase b.url kept.url = false := by simpa using hb
      simp only [dedupFrom, hb', Bool.false_eq_true, if_false]
      exact List.chain'_cons.mpr ⟨hb', ih b⟩

theorem chain_dedupByUrl (l : List DependencyLock) :
    List.Chain' IdentityDistinct (dedupByUrl l) := by
  cases l with
  | nil => simp [dedupByUrl]
  | cons a rest =>
    simp only [dedupByUrl]
    exact chain_dedupFrom rest a

theorem dedupFrom_eq_self :
    ∀ (l : List DependencyLock) (kept : DependencyLock),
      List.Chain' IdentityDistinct (kept :: l) → dedupFrom kept l = l := by
  intro l
  induction l with
  | nil => intro kept _; rfl
  | cons b rest ih =>
    intro kept h
    rw [List.chain'_cons] at h
    have hb : eqIgnoreAsciiCase b.url kept.url = false := h.1
    simp only [dedupFrom, hb, Bool.false_eq_true, if_false]
    rw [ih b h.2]

theorem dedupByUrl_eq_self (l : List DependencyLock)
    (h : List.Chain' IdentityDistinct l) : dedupByUrl l = l := by
  cases l with
  | nil => rfl
  | cons a rest =>
    simp only [dedupByUrl]
    rw [dedupFrom_eq_self rest a h]

theorem copyLoop_lock_irrel (spec : VendorSpec) (dep : Dependency)
    (repo : RepoBehavior) (lA lB : Option DependencyLock) (dst : String) :
    ∀ files, copyLoop (DependencyManager.mk spec dep lA repo) dst files
      = copyLoop (DependencyManager.mk spec dep lB repo) dst files := by
  intro files
  induction files with
  | nil => rfl
  | cons src rest ih =>
    simp only [copyLoop, DependencyManager.fileAction, DependencyManager.is_ignored,
      DependencyManager.is_target, DependencyManager.is_extension]
    rw [ih]

theorem update_lock_irrel (spec : VendorSpec) (dep : Dependency)
    (repo : RepoBehavior) (lA lB : Option DependencyLock) (dst : String) :
    (DependencyManager.mk spec dep lA repo).update dst
      = (DependencyManager.mk spec dep lB repo).update dst := by
  simp only [DependencyManager.update, DependencyManager.importTo,
    DependencyManager.copy_files]
  rw [copyLoop_lock_irrel spec dep repo lA lB dst repo.files]

theorem mergeResults_filter (lock : VendorLock) (now : Nat) :
    ∀ results, mergeResults lock now results
      = mergeResults lock now (results.filter isSuccess) := by
  intro results
  induction results generalizing lock with
  | nil => rfl
  | cons r rest ih =>
    cases r with
    | ok d =>
      have hf : List.filter isSuccess (Except.ok d :: rest)
          = Except.ok d :: List.filter isSuccess rest := by
        simp [List.filter_cons, isSuccess]
      rw [hf]
      simp only [mergeResults, List.foldl_cons]
      exact ih _
    | error e =>
      have hf : List.filter isSuccess (Except.error e :: rest)
          = List.filter isSuccess rest := by
        simp [List.filter_cons, isSuccess]
      rw [hf]
      simp only [mergeResults, List.foldl_cons, update_lock]
      exact ih lock

/-! ## Claims -/

/-- C1: for every dependency, prior lock entry and destination, `install`
resolves the target reference to the prior lock entry's reference when one is
present and to the dependency's declared reference otherwise; the only
reference it ever checks out is exactly that resolved reference, and whenever a
file is copied the trace starts with `ensure` followed by that checkout — the
checkout happens before any copy. -/
theorem C1_install_resolves_locked_refname (m : DependencyManager) (dst : String) :
    (∀ l, m.dependency_lock = some l → m.get_locked_refname = l.refname)
    ∧ (m.dependency_lock = none → m.get_locked_refname = m.dependency.refname)
    ∧ (∀ r, RepoOp.checkout r ∈ (m.install dst).1 → r = m.get_locked_refname)
    ∧ ((∃ s d, RepoOp.copyFile s d ∈ (m.install dst).1) →
        ∃ ops, (m.install dst).1
          = RepoOp.ensure :: RepoOp.checkout m.get_locked_refname :: ops) := by
  refine ⟨?_, ?_, ?_, ?_⟩
  · intro l hl
    simp [DependencyManager.get_locked_refname, hl]
  · intro hl
    simp [DependencyManager.get_locked_refname, hl]
  · intro r hr
    by_cases h1 : m.repository.ensureOk = true
    · by_cases h2 : m.repository.checkoutOk m.get_locked_refname = true
      · simp only [DependencyManager.install, h1, h2, if_true, List.mem_cons] at hr
        rcases hr with hr | hr | hr
        · simp at hr
        · simpa using hr
        · rcases importTo_ops m _ dst _ hr with ⟨s, d, h⟩ | h <;> simp at h
      · simp only [DependencyManager.install, h1, h2, Bool.false_eq_true, if_true,
          if_false, List.mem_cons] at hr
        rcases hr with hr | hr
        · simp at hr
        · simpa using hr
    · simp only [DependencyManager.install, h1, Bool.false_eq_true, if_false,
        List.mem_cons] at hr
      simp at hr
  · rintro ⟨s, d, hsd⟩
    by_cases h1 : m.repository.ensureOk = true
    · by_cases h2 : m.repository.checkoutOk m.get_locked_refname = true
      · refine ⟨(m.importTo (m.repository.resolve m.get_locked_refname) dst).1, ?_⟩
        simp [DependencyManager.install, h1, h2]
      · simp [DependencyManager.install, h1, h2] at hsd
    · simp [DependencyManager.install, h1] at hsd

/-- C1 witness: with a prior lock entry pinning `u` to `locked`, install
resolves the target reference to `locked`, not to the declared `main`. -/
theorem C1_witness : DependencyManager.get_locked_refname mgrLocked = "locked" :=
  (C1_install_resolves_locked_refname mgrLocked "vendor").1 lockEntryA rfl

/-- C3: on a store with at most one entry per identity, upsert preserves that
invariant, upserting the same entry twice leaves exactly one entry for that
identity, and every upsert sets the store's timestamp to the current time. -/
theorem C3_upsert_preserves_unique_identities (lock : VendorLock)
    (d : DependencyLock) (n1 n2 : Nat) (h : UniqueIdentities lock) :
    UniqueIdentities (lock.add d n1)
    ∧ countUrl ((lock.add d n1).add d n2).deps d.url = 1
    ∧ (lock.add d n1).updatedAt = n1 := by
  refine ⟨?_, ?_, rfl⟩
  · intro u
    exact countUrl_addDep_le lock.deps d h u
  · have h1 : countUrl (addDep lock.deps d) d.url = 1 :=
      countUrl_addDep_self lock.deps d (h d.url)
    exact countUrl_addDep_self (addDep lock.deps d) d (by omega)

/-- C3 witness: upserting the same entry twice into the empty store. -/
theorem C3_witness :
    UniqueIdentities (lockEmpty.add lockEntryA 1)
    ∧ countUrl ((lockEmpty.add lockEntryA 1).add lockEntryA 2).deps lockEntryA.url = 1
    ∧ (lockEmpty.add lockEntryA 1).updatedAt = 1 :=
  C3_upsert_preserves_unique_identities lockEmpty lockEntryA 1 2
    (fun u => by simp [lockEmpty, countUrl])

/-- C4: the orchestrator's merge step skips failed results without aborting the
fold and still upserts every successful result — merging all results equals
merging only the successful ones, an error result leaves the store unchanged,
and a successful result is upserted. -/
theorem C4_merge_isolates_failures (lock : VendorLock) (now : Nat)
    (results : List (Except String DependencyLock)) :
    mergeResults lock now results = mergeResults lock now (results.filter isSuccess)
    ∧ (∀ e, update_lock lock now (Except.error e) = lock)
    ∧ (∀ d, update_lock lock now (Except.ok d) = lock.add d now) :=
  ⟨mergeResults_filter lock now results, fun _ => rfl, fun _ => rfl⟩

/-- C6: with no target patterns configured at either level, no path is ever a
target. -/
theorem C6_empty_targets_select_nothing (m : DependencyManager) (p : String)
    (h1 : m.vendor_spec.targets = []) (h2 : m.dependency.targets = []) :
    m.is_target p = false := by
  simp [DependencyManager.is_target, chained_any, h1, h2]

/-- C6 witness: a path that would match the default fixture is not selected
once the target lists are empty. -/
theorem C6_witness : DependencyManager.is_target mgrNoTargets "a/x.proto" = false :=
  C6_empty_targets_select_nothing mgrNoTargets "a/x.proto" rfl rfl

/-- C7: when some spec- or dependency-level ignore pattern is a
(component-wise) prefix of a path, the copy loop classifies the path as
ignored — before the target and extension checks — so it is never copied,
whatever the target and extension configuration. -/
theorem C7_ignore_evaluated_first (m : DependencyManager) (p : String)
    (h : ∃ q ∈ m.vendor_spec.ignores ++ m.dependency.ignores,
      pathStartsWith p q = true) :
    m.is_ignored p = true
    ∧ m.fileAction p = FileAction.ignored
    ∧ m.fileAction p ≠ FileAction.copy := by
  have hi : m.is_ignored p = true := by
    simp only [DependencyManager.is_ignored, chained_any, path_matcher,
      List.any_eq_true]
    exact h
  refine ⟨hi, ?_, ?_⟩
  · simp [DependencyManager.fileAction, hi]
  · simp [DependencyManager.fileAction, hi]

/-- C7 witness: `ignored/y.proto` is classified as ignored even though its
extension is allowed. -/
theorem C7_witness : DependencyManager.fileAction mgrPlain "ignored/y.proto"
    = FileAction.ignored :=
  (C7_ignore_evaluated_first mgrPlain "ignored/y.proto"
    ⟨"ignored", by decide, by decide⟩).2.1

/-- C8: a path with no extension never passes the extension check; a path with
extension `e` passes exactly when some spec- or dependency-level extension
pattern equals `e` ASCII-case-insensitively. -/
theorem C8_extension_case_insensitive (m : DependencyManager) (p : String) :
    (extension p = none → m.is_extension p = false)
    ∧ (∀ e, extension p = some e →
        (m.is_extension p = true ↔
          ∃ pat ∈ m.vendor_spec.extensions ++ m.dependency.extensions,
            eqIgnoreAsciiCase e pat = true)) := by
  constructor
  · intro h
    simp [DependencyManager.is_extension, h]
  · intro e he
    simp only [DependencyManager.is_extension, he, chained_any, extension_matcher,
      List.any_eq_true, List.mem_append]

/-- C8 witness: the pattern `proto` matches a path ending in `.PROTO`. -/
theorem C8_witness : DependencyManager.is_extension mgrPlain "a/x.PROTO" = true :=
  ((C8_extension_case_insensitive mgrPlain "a/x.PROTO").2 "PROTO" rfl).mpr
    ⟨"proto", by decide, by decide⟩

/-- C10: the prefix matching of `is_ignored` and `is_target` is
whole-path-component matching: the pattern `a` matches `a/x.proto` but not
`ab/x.proto`, even though `a` is a string prefix of `ab/x.proto`. -/
theorem C10_component_wise_prefix_matching :
    DependencyManager.is_ignored mgrComponent "a/x.proto" = true
    ∧ DependencyManager.is_ignored mgrComponent "ab/x.proto" = false
    ∧ DependencyManager.is_target mgrComponent "a/x.proto" = true
    ∧ DependencyManager.is_target mgrComponent "ab/x.proto" = false
    ∧ pathStartsWith "ab/x.proto" "a" = false
    ∧ List.isPrefixOf "a".data "ab/x.proto".data = true := by
  refine ⟨by decide, by decide, by decide, by decide, by decide, by decide⟩

/-- C2 counterexample: `lint` on a store holding identities `A`, `B`, `a` keeps
both `A` and `a` — byte-wise sorting does not bring case-insensitive duplicates
together, so the result still has two entries for the identity `a` and the
claimed at-most-one-entry-per-identity property fails. -/
theorem C2_counterexample : ¬ UniqueIdentities lockCaseGap.lint := by
  intro h
  have h2 := h "a"
  revert h2
  decide

/-- C2 (amended): `normalize` stable-sorts the entries by identity (byte-wise,
case-sensitively) and removes only *adjacent* case-insensitive duplicate
identities, keeping the first of each adjacent run; the result is sorted and no
two adjacent entries share an identity, and normalize is idempotent.  Entries
whose identities differ only in case but do not sort adjacently (the
counterexample) may both remain. -/
theorem C2_normalize_amended (lock : VendorLock) :
    lock.lint.lint = lock.lint
    ∧ List.Chain' IdentityDistinct lock.lint.deps
    ∧ List.Sorted urlLe lock.lint.deps := by
  have hsorted : List.Sorted urlLe (List.insertionSort urlLe lock.deps) :=
    List.sorted_insertionSort urlLe lock.deps
  have hDsorted : List.Sorted urlLe (dedupByUrl (List.insertionSort urlLe lock.deps)) :=
    List.Pairwise.sublist (dedupByUrl_sublist _) hsorted
  refine ⟨?_, chain_dedupByUrl _, hDsorted⟩
  show { lock.lint with
    deps := dedupByUrl (List.insertionSort urlLe lock.lint.deps) } = lock.lint
  have h1 : List.insertionSort urlLe lock.lint.deps = lock.lint.deps :=
    List.Sorted.insertionSort_eq hDsorted
  rw [h1]
  have h2 : dedupByUrl lock.lint.deps = lock.lint.deps :=
    dedupByUrl_eq_self _ (chain_dedupByUrl _)
  rw [h2]

/-- C5 counterexample: a job whose second file copy fails returns a failure,
yet the first file already sits in the destination tree — the destination is
not left free of the failed dependency's files. -/
theorem C5_counterexample :
    isSuccess (mgrMidFail.install "vendor").2 = false
    ∧ copiedFiles (mgrMidFail.install "vendor").1 = ["vendor/a/x.proto"] := by
  refine ⟨by decide, by decide⟩

/-- C5 (amended): a failed Install or Update job contributes nothing to the
lock store — the merge step leaves the store exactly as it was — and when the
failure occurs before the copy phase (unreachable repository, failed checkout
for install, failed fetch or reset for update) no file of the dependency has
been copied.  Files copied before a mid-copy failure remain in the destination
(see the counterexample). -/
theorem C5_failed_job_leaves_lock_untouched (m : DependencyManager) (dst : String)
    (lock : VendorLock) (now : Nat) :
    (∀ e, (m.install dst).2 = Except.error e →
        update_lock lock now (m.install dst).2 = lock)
    ∧ (∀ e, (m.update dst).2 = Except.error e →
        update_lock lock now (m.update dst).2 = lock)
    ∧ ((m.repository.ensureOk = false ∨
        m.repository.checkoutOk m.get_locked_refname = false) →
        copiedFiles (m.install dst).1 = [])
    ∧ ((m.repository.ensureOk = false ∨
        m.repository.fetchOk m.dependency.refname = false ∨
        m.repository.resetOk m.dependency.refname = false) →
        copiedFiles (m.update dst).1 = []) := by
  refine ⟨?_, ?_, ?_, ?_⟩
  · intro e h
    rw [h]
    rfl
  · intro e h
    rw [h]
    rfl
  · intro hc
    rcases hc with hc | hc
    · simp [DependencyManager.install, hc, copiedFiles]
    · by_cases h1 : m.repository.ensureOk = true
      · simp [DependencyManager.install, h1, hc, copiedFiles]
      · simp [DependencyManager.install, h1, copiedFiles]
  · intro hc
    rcases hc with hc | hc | hc
    · simp [DependencyManager.update, hc, copiedFiles]
    · by_cases h1 : m.repository.ensureOk = true
      · simp [DependencyManager.update, h1, hc, copiedFiles]
      · simp [DependencyManager.update, h1, copiedFiles]
    · by_cases h1 : m.repository.ensureOk = true
      · by_cases h2 : m.repository.fetchOk m.dependency.refname = true
        · simp [DependencyManager.update, h1, h2, hc, copiedFiles]
        · simp [DependencyManager.update, h1, h2, copiedFiles]
      · simp [DependencyManager.update, h1, copiedFiles]

/-- C5 witness: an unreachable repository fails both install and update before
copying — the lock store is untouched and nothing was copied in either case. -/
theorem C5_witness :
    update_lock lockEmpty 7 (mgrDown.install "vendor").2 = lockEmpty
    ∧ update_lock lockEmpty 7 (mgrDown.update "vendor").2 = lockEmpty
    ∧ copiedFiles (mgrDown.install "vendor").1 = []
    ∧ copiedFiles (mgrDown.update "vendor").1 = [] := by
  have h := C5_failed_job_leaves_lock_untouched mgrDown "vendor" lockEmpty 7
  exact ⟨h.1 "ensure_repository failed" rfl, h.2.1 "ensure_repository failed" rfl,
    h.2.2.1 (Or.inl rfl), h.2.2.2 (Or.inl rfl)⟩

/-- C9: update never consults the lock store or a prior lock entry — its
result is identical whatever lock entry the manager holds and whatever store
`inner_update` receives; it only ever fetches and hard-resets the dependency's
declared reference, and a successful update returns a lock entry whose
reference is the freshly resolved concrete reference of that declared
reference. -/
theorem C9_update_ignores_lock (spec : VendorSpec) (dep : Dependency)
    (repo : RepoBehavior) (dst : String) (lA lB : Option DependencyLock)
    (l1 l2 : VendorLock) :
    inner_update spec dep repo l1 = inner_update spec dep repo l2
    ∧ (DependencyManager.mk spec dep lA repo).update dst
        = (DependencyManager.mk spec dep lB repo).update dst
    ∧ (∀ r, RepoOp.fetch r ∈ ((DependencyManager.mk spec dep lA repo).update dst).1 →
        r = dep.refname)
    ∧ (∀ r, RepoOp.reset r ∈ ((DependencyManager.mk spec dep lA repo).update dst).1 →
        r = dep.refname)
    ∧ (∀ d, ((DependencyManager.mk spec dep lA repo).update dst).2 = Except.ok d →
        d.url = dep.url ∧ d.refname = repo.resolve dep.refname) := by
  refine ⟨rfl, update_lock_irrel spec dep repo lA lB dst, ?_, ?_, ?_⟩
  · intro r hr
    by_cases h1 : repo.ensureOk = true
    · by_cases h2 : repo.fetchOk dep.refname = true
      · by_cases h3 : repo.resetOk dep.refname = true
        · simp only [DependencyManager.update, h1, h2, h3, if_true,
            List.mem_cons] at hr
          rcases hr with hr | hr | hr | hr
          · simp at hr
          · simpa using hr
          · simp at hr
          · rcases importTo_ops _ _ dst _ hr with ⟨s, d, h⟩ | h <;> simp at h
        · simp only [DependencyManager.update, h1, h2, h3, Bool.false_eq_true,
            if_true, if_false, List.mem_cons] at hr
          rcases hr with hr | hr | hr
          · simp at hr
          · simpa using hr
          · simp at hr
      · simp only [DependencyManager.update, h1, h2, Bool.false_eq_true,
          if_true, if_false, List.mem_cons] at hr
        rcases hr with hr | hr
        · simp at hr
        · simpa using hr
    · simp only [DependencyManager.update, h1, Bool.false_eq_true, if_false,
        List.mem_cons] at hr
      simp at hr
  · intro r hr
    by_cases h1 : repo.ensureOk = true
    · by_cases h2 : repo.fetchOk dep.refname = true
      · by_cases h3 : repo.resetOk dep.refname = true
        · simp only [DependencyManager.update, h1, h2, h3, if_true,
            List.mem_cons] at hr
          rcases hr with hr | hr | hr | hr
          · simp at hr
          · simp at hr
          · simpa using hr
          · rcases importTo_ops _ _ dst _ hr with ⟨s, d, h⟩ | h <;> simp at h
        · simp only [DependencyManager.update, h1, h2, h3, Bool.false_eq_true,
            if_true, if_false, List.mem_cons] at hr
          rcases hr with hr | hr | hr
          · simp at hr
          · simp at hr
          · simpa using hr
      · simp only [DependencyManager.update, h1, h2, Bool.false_eq_true,
          if_true, if_false, List.mem_cons] at hr
        rcases hr with hr | hr
        · simp at hr
        · simp at hr
    · simp only [DependencyManager.update, h1, Bool.false_eq_true, if_false,
        List.mem_cons] at hr
      simp at hr
  · intro d hd
    by_cases h1 : repo.ensureOk = true
    · by_cases h2 : repo.fetchOk dep.refname = true
      · by_cases h3 : repo.resetOk dep.refname = true
        · simp only [DependencyManager.update, h1, h2, h3, if_true] at hd
          have hok := importTo_ok (DependencyManager.mk spec dep lA repo) _ dst d hd
          exact ⟨hok.1, hok.2⟩
        · simp [DependencyManager.update, h1, h2, h3] at hd
      · simp [DependencyManager.update, h1, h2] at hd
    · simp [DependencyManager.update, h1] at hd

/-- C9 witness: updating against the healthy fixture freshly resolves the
declared `main` to `main-sha` and records the dependency's identity. -/
theorem C9_witness :
    DependencyLock.url ⟨"u", "main-sha"⟩ = depA.url
    ∧ DependencyLock.refname ⟨"u", "main-sha"⟩ = repoA.resolve depA.refname :=
  (C9_update_ignores_lock specA depA repoA "vendor" none (some lockEntryA)
    lockEmpty lockEmpty).2.2.2.2 ⟨"u", "main-sha"⟩ rfl
